import Mathlib

/-!
Shallow embedding of the extraction pipeline of `uma_ocr_to_csv.py`
(with the dictionary builder of `uma_csv_to_url.py`).

Conventions of the embedding:
* OCR box coordinates and similarity scores are floats in the source;
  they are modelled as exact rationals (`ℚ`).  All decisions the claims
  are about are order comparisons, which the rational model preserves.
* The external collaborators (the OCR engine, OpenCV's Hough circle
  primitive and Canny edge counter, the `rapidfuzz` scorer where a claim
  quantifies over scorers) enter as explicit parameters.
* Python dicts are modelled as association lists in insertion order with
  overwrite-on-insert, which reproduces dict-comprehension semantics.
-/

namespace UmaOcr

/-- One OCR result entry: the bounding polygon (list of points) and the
recognized text, as produced by `RapidOCR` (`res` entries `box, text, _`). -/
structure TextBox where
  pts  : List (ℚ × ℚ)
  text : String
deriving DecidableEq, Repr

/-- `min(p[...] for p in box)`-style fold; OCR always returns 4 points,
the `[]` default is never exercised by the pipeline. -/
def coordFold (f : ℚ → ℚ → ℚ) (sel : ℚ × ℚ → ℚ) : List (ℚ × ℚ) → ℚ
  | []      => 0
  | p :: ps => ps.foldl (fun a q => f a (sel q)) (sel p)

def TextBox.x0 (b : TextBox) : ℚ := coordFold min Prod.fst b.pts
def TextBox.y0 (b : TextBox) : ℚ := coordFold min Prod.snd b.pts
def TextBox.x1 (b : TextBox) : ℚ := coordFold max Prod.fst b.pts
def TextBox.y1 (b : TextBox) : ℚ := coordFold max Prod.snd b.pts

/-! ## Normalization (`_normalize_circles`, `_norm`) -/

/-- The `_CIRCLE_ALIASES` table: lookalikes of the circle glyphs are
replaced (`o`, `O`, `0`, `〇` ↦ `○`; `◎` and `○` map to themselves). -/
def circleAlias (c : Char) : Char :=
  if c = 'o' ∨ c = 'O' ∨ c = '0' ∨ c = '〇' then '○' else c

/-- `_normalize_circles`: apply `circleAlias` characterwise. -/
def normalizeCircles (s : String) : String :=
  ⟨s.data.map circleAlias⟩

/-- `str.lower()` restricted to ASCII, which coincides with Python on
every character class `_norm` can keep. -/
def pyLower (c : Char) : Char :=
  if 'A' ≤ c ∧ c ≤ 'Z' then Char.ofNat (c.toNat + 32) else c

/-- Membership in the character class `[a-z0-9◎○]` of `_norm`'s regex. -/
def isNormChar (c : Char) : Bool :=
  ('a' ≤ c ∧ c ≤ 'z') ∨ ('0' ≤ c ∧ c ≤ '9') ∨ c = '◎' ∨ c = '○'

/-- `_norm`: circle-alias pass, then lower-case, then strip every
character outside `[a-z0-9◎○]` (the `re.sub` deletes non-members). -/
def norm (s : String) : String :=
  ⟨((normalizeCircles s).data.map pyLower).filter isNormChar⟩

/-- Reference normalization, written from the claim's words: lower-case
the string, then remove every character that is not an ASCII alphanumeric
or one of the two marker glyphs — and nothing else. -/
def normRef (s : String) : String :=
  ⟨(s.data.map pyLower).filter isNormChar⟩

/-! ## Approximate matching (`rapidfuzz`: `fuzz.ratio`, `process.extractOne`) -/

/-- Longest common subsequence length, fuel-indexed so the recursion is
structural (each call consumes at least one character from the combined
input, so fuel `|a| + |b|` never runs out). -/
def lcsFuel : Nat → List Char → List Char → Nat
  | 0, _, _ => 0
  | _ + 1, [], _ => 0
  | _ + 1, _ :: _, [] => 0
  | f + 1, a :: as, b :: bs =>
      if a = b then lcsFuel f as bs + 1
      else max (lcsFuel f (a :: as) bs) (lcsFuel f as (b :: bs))

/-- Longest common subsequence length of two character lists. -/
def lcs (as bs : List Char) : Nat := lcsFuel (as.length + bs.length) as bs

/-- `fuzz.ratio`: normalized InDel similarity on a 0–100 scale,
`100 * 2*lcs/(|a|+|b|)`; two empty strings score 100. -/
def fuzzRatio (a b : String) : ℚ :=
  if a.data.length + b.data.length = 0 then 100
  else 100 * (2 * (lcs a.data b.data : ℚ)) / (a.data.length + b.data.length)

/-- One choice of `process.extractOne`: it becomes the running best when
its score reaches the cutoff and strictly exceeds the previous best. -/
def eoStep (score : String → String → ℚ) (q : String) (cutoff : ℚ)
    (best : Option (String × ℚ)) (c : String) : Option (String × ℚ) :=
  let s := score q c
  if cutoff ≤ s then
    match best with
    | none => some (c, s)
    | some bp => if bp.2 < s then some (c, s) else some bp
  else best

/-- `process.extractOne(query, choices, scorer, score_cutoff)`: best
match at or above the cutoff, the first choice winning score ties;
`none` when no choice reaches the cutoff. -/
def extractOne (score : String → String → ℚ) (q : String)
    (choices : List String) (cutoff : ℚ) : Option (String × ℚ) :=
  choices.foldl (eoStep score q cutoff) none

/-! ## Column grouping (`_group_column`, `_group_skills`) -/

/-- One `lines` entry `[x0, y0, x1, y1, text]`. -/
structure SkillLine where
  x0 : ℚ
  y0 : ℚ
  x1 : ℚ
  y1 : ℚ
  text : String
deriving DecidableEq, Repr

/-- One `grouped` entry `[x0, y0, x1, y1, texts]`. -/
structure SkillGroup where
  x0 : ℚ
  y0 : ℚ
  x1 : ℚ
  y1 : ℚ
  texts : List String
deriving DecidableEq, Repr

/-- Stable insertion keyed on `y0` (a later line lands after equal keys). -/
def insertByY (l : SkillLine) : List SkillLine → List SkillLine
  | [] => [l]
  | m :: ms => if m.y0 ≤ l.y0 then m :: insertByY l ms else l :: m :: ms

/-- `lines.sort(key=lambda l: l[1])`: Python's sort is stable, modelled
by stable insertion sort on the `y0` key. -/
def sortByY (ls : List SkillLine) : List SkillLine :=
  ls.foldl (fun acc l => insertByY l acc) []

/-- The merging loop of `_group_column`, with the group list reversed so
`grouped[-1]` is the head: a line merges into the previous group when
`y0 - grouped[-1][3] < 25`, widening the group's `x1`/`y1` envelope. -/
def groupRunRev (acc : List SkillGroup) : List SkillLine → List SkillGroup
  | [] => acc
  | l :: ls =>
    match acc with
    | g :: gs =>
        if l.y0 - g.y1 < 25 then
          groupRunRev
            (⟨g.x0, g.y0, max g.x1 l.x1, max g.y1 l.y1, g.texts ++ [l.text]⟩ :: gs) ls
        else
          groupRunRev (⟨l.x0, l.y0, l.x1, l.y1, [l.text]⟩ :: g :: gs) ls
    | [] => groupRunRev [⟨l.x0, l.y0, l.x1, l.y1, [l.text]⟩] ls

/-- `_group_column`. -/
def groupColumn (ls : List SkillLine) : List SkillGroup :=
  (groupRunRev [] (sortByY ls)).reverse

def listMin (xs : List ℚ) : ℚ :=
  match xs with
  | [] => 0
  | x :: rest => rest.foldl min x

def listMax (xs : List ℚ) : ℚ :=
  match xs with
  | [] => 0
  | x :: rest => rest.foldl max x

def TextBox.toSkillLine (b : TextBox) : SkillLine :=
  ⟨b.x0, b.y0, b.x1, b.y1, b.text⟩

/-- The skill-zone filter of `_group_skills`: `if y0 < 850: continue`. -/
def skillLines (res : List TextBox) : List SkillLine :=
  (res.map TextBox.toSkillLine).filter (fun l => ¬ l.y0 < 850)

/-- The column midpoint `mid = (min(xs) + max(xs)) / 2`. -/
def skillMid (lines : List SkillLine) : ℚ :=
  (listMin (lines.map SkillLine.x0) + listMax (lines.map SkillLine.x0)) / 2

def leftColumn (lines : List SkillLine) : List SkillLine :=
  lines.filter (fun l => l.x0 < skillMid lines)

def rightColumn (lines : List SkillLine) : List SkillLine :=
  lines.filter (fun l => skillMid lines ≤ l.x0)

/-- `(l[0], l[1], l[2], l[3], " ".join(l[4]))`. -/
def SkillGroup.finalize (g : SkillGroup) : ℚ × ℚ × ℚ × ℚ × String :=
  (g.x0, g.y0, g.x1, g.y1, String.intercalate " " g.texts)

/-- `itertools.zip_longest`, padding the shorter list with `none`. -/
def zipLongest : List α → List β → List (Option α × Option β)
  | [], bs => bs.map (fun b => (none, some b))
  | a :: as, [] => (some a, none) :: zipLongest as []
  | a :: as, b :: bs => (some a, some b) :: zipLongest as bs

/-- The emission loop of `_group_skills`: `if l: groups.append(...)`,
`if r: groups.append(...)` per `zip_longest` pair (a real group is
always truthy; only the `none` padding is skipped). -/
def emitGroups : List (Option SkillGroup × Option SkillGroup) →
    List (ℚ × ℚ × ℚ × ℚ × String)
  | [] => []
  | (l, r) :: ps =>
      l.toList.map SkillGroup.finalize ++ r.toList.map SkillGroup.finalize ++
        emitGroups ps

/-- `_group_skills`. -/
def groupSkills (res : List TextBox) : List (ℚ × ℚ × ℚ × ℚ × String) :=
  let lines := skillLines res
  if lines.isEmpty then []
  else
    emitGroups
      (zipLongest (groupColumn (leftColumn lines)) (groupColumn (rightColumn lines)))

/-- Row-by-row interleaving, written from the spec's words: the left
column's group of row `i`, then the right column's group of row `i`;
a missing slot is omitted with no placeholder. -/
def interleave : List α → List α → List α
  | [], ys => ys
  | x :: xs, [] => x :: xs
  | x :: xs, y :: ys => x :: y :: interleave xs ys

/-! ## Stat parsing (`extract`, stats section) -/

/-- `re.fullmatch(r"\d{3,4}", text)` (decimal digits; the embedding uses
the ASCII digit class, on which the pipeline's inputs live). -/
def isStatNum (s : String) : Bool :=
  s.data.all Char.isDigit ∧ 3 ≤ s.data.length ∧ s.data.length ≤ 4

/-- Generic stable insertion: a later element lands after equal keys,
so `sortLe` reproduces Python's stable `list.sort`. -/
def insertLe (le : α → α → Bool) (x : α) : List α → List α
  | [] => [x]
  | y :: ys => if le y x then y :: insertLe le x ys else x :: y :: ys

def sortLe (le : α → α → Bool) (xs : List α) : List α :=
  xs.foldl (fun acc x => insertLe le x acc) []

/-- The `(y0, x0, text)` triples of numeric boxes (`nums`). -/
def statNums (res : List TextBox) : List (ℚ × ℚ × String) :=
  (res.filter (fun b => isStatNum b.text)).map (fun b => (b.y0, b.x0, b.text))

/-- Lexicographic tuple order of `nums.sort()` (`y0`, then `x0`, then
the text, compared as code-point sequences as Python compares `str`). -/
def numLe (a b : ℚ × ℚ × String) : Bool :=
  a.1 < b.1 ∨ (a.1 = b.1 ∧ (a.2.1 < b.2.1 ∨ (a.2.1 = b.2.1 ∧ ¬ b.2.2 < a.2.2)))

def statsSorted (res : List TextBox) : List (ℚ × ℚ × String) :=
  sortLe numLe (statNums res)

/-- `row`: every numeric box within 30 of the topmost box's `y0`,
sorted left-to-right (`row.sort(key=lambda n: n[1])`). -/
def statRowOf (res : List TextBox) : List (ℚ × ℚ × String) :=
  match statsSorted res with
  | [] => []
  | n :: _ =>
      sortLe (fun a b => decide (a.2.1 ≤ b.2.1))
        ((statsSorted res).filter (fun m => |m.1 - n.1| < 30))

/-- `stats_vals`: five blanks when no numeral was recognized, otherwise
`[n[2] for n in row[:5]]` (which has `min 5 |row|` entries, not five). -/
def statVals (res : List TextBox) : List String :=
  match statsSorted res with
  | [] => ["", "", "", "", ""]
  | _ :: _ => ((statRowOf res).take 5).map (fun n => n.2.2)

def statLabels : List String := ["Speed", "Stamina", "Power", "Guts", "Wit"]

/-- `dict(zip(["Speed", ...], stats_vals))`: the labels are distinct, so
the dict is the label/value association in label order, truncated by
`zip` to the shorter of the two lists. -/
def statRecord (res : List TextBox) : List (String × String) :=
  statLabels.zip (statVals res)

/-! ## Python dicts as association lists -/

/-- `d[k] = v` on an insertion-ordered dict: overwrite in place or
append at the end. -/
def dinsert : List (String × String) → String → String → List (String × String)
  | [], k, v => [(k, v)]
  | (k', v') :: m, k, v =>
      if k' = k then (k, v) :: m else (k', v') :: dinsert m k v

/-- `d.get(k)`. -/
def dictGet (m : List (String × String)) (k : String) : Option String :=
  (m.find? (fun p => p.1 = k)).map (fun p => p.2)

/-! ## Dictionary construction (`CANONICAL_MAP`, `load_skill_mapping`) -/

/-- `CANONICAL_SKILLS`: `[names[0] for names in data.values() if names]`. -/
def loadSkills (data : List (String × List String)) : List String :=
  data.filterMap (fun p => p.2.head?)

/-- `CANONICAL_MAP = {_norm(name): name for name in skills}` — a dict
comprehension, so a later colliding entry overwrites an earlier one. -/
def canonicalMapOf (skills : List String) : List (String × String) :=
  skills.foldl (fun m name => dinsert m (norm name) name) []

/-- `name.lower()`. -/
def pyLowerStr (s : String) : String := ⟨s.data.map pyLower⟩

/-- `load_skill_mapping` with the alternate-flag test abstracted as a
predicate on identifiers: an entry claims a key when the key is free or
held by a flagged identifier while this entry's is unflagged. -/
def loadSkillMappingWith (isAlt : String → Bool)
    (data : List (String × List String)) : List (String × String) :=
  data.foldl
    (fun m p =>
      p.2.foldl
        (fun m name =>
          let key := pyLowerStr name
          match dictGet m key with
          | none => dinsert m key p.1
          | some existing =>
              if isAlt existing ∧ ¬ isAlt p.1 then dinsert m key p.1 else m)
        m)
    []

/-- `load_skill_mapping` as in the source, where the alternate test is
hard-coded as `skill_id.startswith("9")`. -/
def loadSkillMapping (data : List (String × List String)) : List (String × String) :=
  loadSkillMappingWith (fun i => i.startsWith "9") data

/-! ## Runner-name resolution (`extract`, runner-name section) -/

/-- One iteration of the runner-name loop: a box participates when
`y1 < 400 and x0 > width * 0.5`; its normalized text is matched against
the name dictionary with **no** score cutoff (`process.extractOne`
without `score_cutoff`; `fuzz.ratio` is never negative, so this is
cutoff `0` with every choice eligible), and the running best is replaced
only on a strictly larger score (`match[1] > best_score`). -/
def runnerStep (umaMap : List (String × String)) (width : ℚ)
    (acc : String × ℚ) (b : TextBox) : String × ℚ :=
  if b.y1 < 400 ∧ width * (1 / 2) < b.x0 then
    if norm b.text = "" then acc
    else
      match extractOne fuzzRatio (norm b.text) (umaMap.map Prod.fst) 0 with
      | none => acc
      | some m => if acc.2 < m.2 then ((dictGet umaMap m.1).getD "", m.2) else acc
  else acc

/-- The runner-name loop: fold over the OCR boxes starting from
`runner_name = ""`, `best_score = 0`. -/
def runnerFold (umaMap : List (String × String)) (width : ℚ)
    (res : List TextBox) (acc : String × ℚ) : String × ℚ :=
  res.foldl (runnerStep umaMap width) acc

def runnerName (umaMap : List (String × String)) (width : ℚ)
    (res : List TextBox) : String :=
  (runnerFold umaMap width res ("", 0)).1

/-- The runner-name filter of the loop: `y1 < 400 and x0 > width * 0.5`. -/
def inNameRegion (width : ℚ) (b : TextBox) : Prop :=
  b.y1 < 400 ∧ width * (1 / 2) < b.x0

instance (width : ℚ) (b : TextBox) : Decidable (inNameRegion width b) :=
  inferInstanceAs (Decidable (_ ∧ _))

/-- The score a box's normalized text earns against the name dictionary
(`match[1]`, or 0 when no match is returned). -/
def bestScore (umaMap : List (String × String)) (b : TextBox) : ℚ :=
  match extractOne fuzzRatio (norm b.text) (umaMap.map Prod.fst) 0 with
  | some m => m.2
  | none => 0

/-- The display name a box resolves to (`UMA_MAP[match[0]]`, or the
empty string when no match is returned). -/
def resolvedName (umaMap : List (String × String)) (b : TextBox) : String :=
  match extractOne fuzzRatio (norm b.text) (umaMap.map Prod.fst) 0 with
  | some m => (dictGet umaMap m.1).getD ""
  | none => ""

/-! ## Skill canonicalization and dedup (`extract`, skills section) -/

/-- The per-group body of the skill loop, with `_detect_circle` on the
source image abstracted as `circleOf` (the two glyphs are single
characters, so Python's `circle not in text` is character containment):
append the marker when absent, normalize, match with `score_cutoff=80`,
and translate the matched key through the dictionary. `none` means the
group contributed no accepted canonical name. -/
def skillCandidate (canonMap : List (String × String))
    (circleOf : ℚ × ℚ × ℚ × ℚ → Option Char)
    (g : ℚ × ℚ × ℚ × ℚ × String) : Option String :=
  let text := g.2.2.2.2
  let text :=
    match circleOf (g.1, g.2.1, g.2.2.1, g.2.2.2.1) with
    | some c => if c ∈ text.data then text else text ++ " " ++ c.toString
    | none => text
  let key := norm text
  if key = "" then none
  else
    match extractOne fuzzRatio key (canonMap.map Prod.fst) 80 with
    | some m => dictGet canonMap m.1
    | none => none

/-- One iteration of the dedup loop over (`seen`, `skills`): an accepted
canonical name is appended only when not in `seen`. -/
def skillFoldStep (st : List String × List String) (c : Option String) :
    List String × List String :=
  match c with
  | none => st
  | some canonical =>
      if canonical ∈ st.1 then st else (canonical :: st.1, st.2 ++ [canonical])

/-- The accepted-skill list produced by folding the dedup loop from an
empty `seen` set and an empty `skills` list. -/
def skillsOut (cs : List (Option String)) : List String :=
  (cs.foldl skillFoldStep ([], [])).2

/-- The full skill stage of `extract`. -/
def extractSkills (canonMap : List (String × String))
    (circleOf : ℚ × ℚ × ℚ × ℚ → Option Char) (res : List TextBox) : List String :=
  skillsOut ((groupSkills res).map (skillCandidate canonMap circleOf))

/-- First-occurrence deduplication, written from the spec's words: keep
a name exactly when it has not been kept before. -/
def firstOccFrom (seen : List String) : List String → List String
  | [] => []
  | x :: xs =>
      if x ∈ seen then firstOccFrom seen xs else x :: firstOccFrom (x :: seen) xs

def firstOcc (l : List String) : List String := firstOccFrom [] l

/-! ## Circle-marker classification (`_detect_circle`) -/

/-- A Hough candidate `(cx, cy, r)`. -/
structure Circle where
  cx : ℚ
  cy : ℚ
  r : ℚ
deriving DecidableEq, Repr

/-- `max(circles[0], key=lambda c: c[2])`: Python's `max` keeps the
first element among maximal keys (a later one replaces only when
strictly larger). -/
def pyMaxByR : List Circle → Option Circle
  | [] => none
  | c :: cs => some (cs.foldl (fun b x => if b.r < x.r then x else b) c)

/-- The IEEE-double value of `math.pi`, as an exact rational. -/
def piRat : ℚ := 884279719003555 / 2 ^ 48

/-- `int(r * 0.55)`: truncation of a nonnegative product, i.e. the floor
(Hough radii are bounded below by `minRadius=5 > 0`). -/
def innerRadius (r : ℚ) : ℤ := ⌊r * (11 / 20)⌋

/-- Ring coverage `count / (2 * math.pi * inner_r)`. -/
def coverage (count : ℚ) (inner : ℤ) : ℚ := count / (2 * piRat * inner)

/-- `_detect_circle` after the external crop/Hough/Canny primitives:
`circles` is what `cv2.HoughCircles` returned for the crop (`none`
result when it found nothing) and `edgeCount c` is the number of edge
pixels `cv2.countNonZero` reports along the ring of circle `c` in the
crop. The largest-radius candidate is selected and classified filled
(`◎`) when its ring coverage exceeds `0.6`, else plain (`○`). -/
def detectCircle (circles : List Circle) (edgeCount : Circle → ℚ) : Option Char :=
  match pyMaxByR circles with
  | none => none
  | some c =>
      if 3 / 5 < coverage (edgeCount c) (innerRadius c.r)
      then some '◎' else some '○'

/-! ## Shared helper lemmas -/

theorem foldlPreserve {α β : Type} (P : α → Prop) (step : α → β → α)
    (h : ∀ a b, P a → P (step a b)) :
    ∀ (l : List β) (a : α), P a → P (l.foldl step a) := by
  intro l
  induction l with
  | nil => intro a ha; simpa using ha
  | cons x xs ih => intro a ha; rw [List.foldl_cons]; exact ih _ (h a x ha)

theorem eoStep_cases (score : String → String → ℚ) (q : String) (cutoff : ℚ)
    (acc : Option (String × ℚ)) (c : String) (p : String × ℚ)
    (h : eoStep score q cutoff acc c = some p) :
    acc = some p ∨ (p = (c, score q c) ∧ cutoff ≤ score q c) := by
  unfold eoStep at h
  by_cases hc : cutoff ≤ score q c
  · cases acc with
    | none =>
        right
        simp only [hc, if_true] at h
        exact ⟨(Option.some.injEq _ _ ▸ h).symm, hc⟩
    | some bp =>
        by_cases hlt : bp.2 < score q c
        · right
          simp only [hc, if_true, hlt] at h
          exact ⟨(Option.some.injEq _ _ ▸ h).symm, hc⟩
        · left
          simp only [hc, if_true, hlt, if_false] at h
          rw [h]
  · left
    simp only [hc, if_false] at h
    rw [h]

theorem eoFold_mem (score : String → String → ℚ) (q : String) (cutoff : ℚ)
    (C : String × ℚ → Prop) :
    ∀ (choices : List String) (acc : Option (String × ℚ)),
      (∀ p, acc = some p → C p) →
      (∀ k ∈ choices, cutoff ≤ score q k → C (k, score q k)) →
      ∀ p, choices.foldl (eoStep score q cutoff) acc = some p → C p := by
  intro choices
  induction choices with
  | nil => intro acc hacc _ p hp; exact hacc p (by simpa using hp)
  | cons k ks ih =>
      intro acc hacc hks p hp
      rw [List.foldl_cons] at hp
      refine ih (eoStep score q cutoff acc k) ?_ ?_ p hp
      · intro p' hp'
        rcases eoStep_cases score q cutoff acc k p' hp' with hacc' | ⟨rfl, hc⟩
        · exact hacc p' hacc'
        · exact hks k (List.mem_cons_self _ _) hc
      · intro k' hk' hc
        exact hks k' (List.mem_cons_of_mem _ hk') hc

theorem eoFold_some_of_acc (score : String → String → ℚ) (q : String) (cutoff : ℚ) :
    ∀ (choices : List String) (p : String × ℚ),
      ∃ p', choices.foldl (eoStep score q cutoff) (some p) = some p' := by
  intro choices
  induction choices with
  | nil => intro p; exact ⟨p, rfl⟩
  | cons k ks ih =>
      intro p
      rw [List.foldl_cons]
      have hstep : ∃ p2, eoStep score q cutoff (some p) k = some p2 := by
        unfold eoStep
        by_cases hc : cutoff ≤ score q k
        · by_cases hlt : p.2 < score q k <;> simp [hc, hlt]
        · simp [hc]
      obtain ⟨p2, hp2⟩ := hstep
      rw [hp2]
      exact ih p2

theorem eoFold_some (score : String → String → ℚ) (q : String) (cutoff : ℚ) :
    ∀ (choices : List String) (acc : Option (String × ℚ)),
      (∃ k ∈ choices, cutoff ≤ score q k) →
      ∃ p, choices.foldl (eoStep score q cutoff) acc = some p := by
  intro choices
  induction choices with
  | nil =>
      intro acc h
      obtain ⟨k, hk, _⟩ := h
      exact absurd hk (List.not_mem_nil k)
  | cons k ks ih =>
      intro acc h
      rw [List.foldl_cons]
      by_cases hc : cutoff ≤ score q k
      · have hstep : ∃ p2, eoStep score q cutoff acc k = some p2 := by
          unfold eoStep
          cases acc with
          | none => simp [hc]
          | some bp => by_cases hlt : bp.2 < score q k <;> simp [hc, hlt]
        obtain ⟨p2, hp2⟩ := hstep
        rw [hp2]
        exact eoFold_some_of_acc score q cutoff ks p2
      · obtain ⟨k0, hk0, hs0⟩ := h
        rcases List.mem_cons.mp hk0 with rfl | hk0tl
        · exact absurd hs0 hc
        · have hkeep : eoStep score q cutoff acc k = acc := by
            unfold eoStep; simp [hc]
          rw [hkeep]
          exact ih acc ⟨k0, hk0tl, hs0⟩

/-! ## Claim C3 -/

/-- C3, counterexample: `_norm` does not equal the reference
normalization (lower-case, then strip everything outside
`[a-z0-9◎○]`, and nothing else): on input `"1000"` the source first
rewrites each digit `0` — a character inside the alphanumeric class —
to the marker glyph `○`, yielding `"1○○○"` where the reference
definition yields `"1000"`. -/
theorem c3_counterexample :
    norm "1000" = "1○○○" ∧ normRef "1000" = "1000" ∧
      norm "1000" ≠ normRef "1000" := by decide

/-- C3, amended: `_norm` equals the reference normalization composed
with the circle-lookalike prepass (`o`, `O`, `0`, `〇` ↦ `○`); on every
string containing none of the four lookalike characters the two
normalizations agree exactly. -/
theorem c3_amended (s : String)
    (h : ∀ c ∈ s.data, c ≠ 'o' ∧ c ≠ 'O' ∧ c ≠ '0' ∧ c ≠ '〇') :
    norm s = normRef s ∧ norm s = normRef (normalizeCircles s) := by
  refine ⟨?_, rfl⟩
  unfold norm normRef normalizeCircles
  have hmap : s.data.map circleAlias = s.data := by
    have : s.data.map circleAlias = s.data.map id := by
      apply List.map_congr_left
      intro c hc
      obtain ⟨h1, h2, h3, h4⟩ := h c hc
      unfold circleAlias
      simp [h1, h2, h3, h4]
    simpa using this
  rw [hmap]

/-- C3 witness: the amended statement at the lookalike-free input
`"Wit 96"`. -/
theorem c3_amended_witness :
    norm "Wit 96" = normRef "Wit 96" ∧
      norm "Wit 96" = normRef (normalizeCircles "Wit 96") :=
  c3_amended "Wit 96" (by decide)

/-! ## Claim C5 -/

/-- C5: the canonical matcher (`process.extractOne` with
`score_cutoff=80`, as invoked on every skill candidate) never returns a
match scoring below 80; when the best score among the dictionary keys is
exactly 80 the candidate is accepted (with score 80), and when every key
scores at most 79 the candidate is rejected (`none`, not an error). -/
theorem c5_cutoff (score : String → String → ℚ) (q : String) (keys : List String) :
    (∀ k s, extractOne score q keys 80 = some (k, s) → 80 ≤ s) ∧
    ((∃ k ∈ keys, score q k = 80) → (∀ k ∈ keys, score q k ≤ 80) →
      ∃ k, extractOne score q keys 80 = some (k, 80)) ∧
    ((∀ k ∈ keys, score q k ≤ 79) → extractOne score q keys 80 = none) := by
  have sound : ∀ p, extractOne score q keys 80 = some p →
      p.1 ∈ keys ∧ p.2 = score q p.1 ∧ 80 ≤ p.2 := by
    intro p hp
    exact eoFold_mem score q 80
      (fun p => p.1 ∈ keys ∧ p.2 = score q p.1 ∧ 80 ≤ p.2)
      keys none (by simp) (fun k hk hs => ⟨hk, rfl, hs⟩) p hp
  refine ⟨?_, ?_, ?_⟩
  · intro k s h
    exact (sound (k, s) h).2.2
  · rintro ⟨k0, hk0, hs0⟩ hall
    obtain ⟨p, hp⟩ := eoFold_some score q 80 keys none ⟨k0, hk0, by rw [hs0]⟩
    obtain ⟨hmem, heq, hge⟩ := sound p hp
    have hle : p.2 ≤ 80 := by rw [heq]; exact hall p.1 hmem
    have h80 : p.2 = 80 := le_antisymm hle hge
    refine ⟨p.1, ?_⟩
    have hps : p = (p.1, 80) := by rw [← h80]
    rw [← hps]
    exact hp
  · intro hall
    cases h : extractOne score q keys 80 with
    | none => rfl
    | some p =>
        obtain ⟨hmem, heq, hge⟩ := sound p h
        have : p.2 ≤ 79 := by rw [heq]; exact hall p.1 hmem
        linarith

/-- C5 witness: with a scorer valuing the single key at exactly 80 the
match is accepted with score 80; with a scorer valuing it at 79 the
candidate is rejected. -/
theorem c5_cutoff_witness :
    (∃ k, extractOne (fun _ _ => (80 : ℚ)) "q" ["k"] 80 = some (k, 80)) ∧
    extractOne (fun _ _ => (79 : ℚ)) "q" ["k"] 80 = none := by
  constructor
  · exact (c5_cutoff (fun _ _ => 80) "q" ["k"]).2.1
      ⟨"k", by simp, rfl⟩ (by intro k _; norm_num)
  · exact (c5_cutoff (fun _ _ => 79) "q" ["k"]).2.2 (by intro k _; norm_num)

/-! ## Claim C6 -/

/-- C6: two boxes of one column, sorted by top coordinate, merge into a
single group exactly when the vertical gap between the first group's
bottom edge (`grouped[-1][3]`) and the second box's top edge is strictly
below the merge threshold 25; at or above the threshold they form two
groups. -/
theorem c6_column_merge (b1 b2 : SkillLine) (hsort : b1.y0 ≤ b2.y0) :
    (b2.y0 - b1.y1 < 25 →
      groupColumn [b1, b2] =
        [⟨b1.x0, b1.y0, max b1.x1 b2.x1, max b1.y1 b2.y1, [b1.text, b2.text]⟩]) ∧
    (¬ b2.y0 - b1.y1 < 25 →
      groupColumn [b1, b2] =
        [⟨b1.x0, b1.y0, b1.x1, b1.y1, [b1.text]⟩,
         ⟨b2.x0, b2.y0, b2.x1, b2.y1, [b2.text]⟩]) := by
  have hs : sortByY [b1, b2] = [b1, b2] := by
    simp [sortByY, insertByY, hsort]
  constructor <;> intro h
  · simp [groupColumn, hs, groupRunRev, h]
  · simp [groupColumn, hs, groupRunRev, h]

/-- C6 witness: gap `30 - 20 = 10 < 25` produces one merged group; gap
`45 - 20 = 25` (at the threshold) produces two groups. -/
theorem c6_column_merge_witness :
    groupColumn [⟨0, 0, 10, 20, "a"⟩, ⟨0, 30, 12, 50, "b"⟩] =
      [⟨0, 0, max 10 12, max 20 50, ["a", "b"]⟩] ∧
    groupColumn [⟨0, 0, 10, 20, "a"⟩, ⟨0, 45, 12, 60, "b"⟩] =
      [⟨0, 0, 10, 20, ["a"]⟩, ⟨0, 45, 12, 60, ["b"]⟩] := by
  constructor
  · exact (c6_column_merge ⟨0, 0, 10, 20, "a"⟩ ⟨0, 30, 12, 50, "b"⟩
      (by with_unfolding_all decide)).1 (by with_unfolding_all decide)
  · exact (c6_column_merge ⟨0, 0, 10, 20, "a"⟩ ⟨0, 45, 12, 60, "b"⟩
      (by with_unfolding_all decide)).2 (by with_unfolding_all decide)

/-! ## Claim C7 -/

theorem interleave_nil_right : ∀ (xs : List α), interleave xs [] = xs
  | [] => rfl
  | _ :: _ => rfl

theorem emit_zip_nil_left : ∀ (rg : List SkillGroup),
    emitGroups (zipLongest ([] : List SkillGroup) rg) = rg.map SkillGroup.finalize := by
  intro rg
  induction rg with
  | nil => rfl
  | cons g gs ih =>
      show emitGroups ((g :: gs).map (fun b => (none, some b))) = _
      rw [List.map_cons]
      simpa [emitGroups, zipLongest] using ih

theorem emit_zip_nil_right : ∀ (lg : List SkillGroup),
    emitGroups (zipLongest lg ([] : List SkillGroup)) = lg.map SkillGroup.finalize := by
  intro lg
  induction lg with
  | nil => rfl
  | cons g gs ih => simp [zipLongest, emitGroups, ih]

theorem emit_zip_interleave : ∀ (lg rg : List SkillGroup),
    emitGroups (zipLongest lg rg) =
      interleave (lg.map SkillGroup.finalize) (rg.map SkillGroup.finalize) := by
  intro lg
  induction lg with
  | nil =>
      intro rg
      rw [emit_zip_nil_left]
      rfl
  | cons g gs ih =>
      intro rg
      cases rg with
      | nil =>
          rw [emit_zip_nil_right]
          exact (interleave_nil_right _).symm
      | cons h hs => simp [zipLongest, emitGroups, interleave, ih hs]

/-- C7: the output of `_group_skills` is exactly the row-by-row
interleaving of the two columns' group sequences — the left group of row
`i`, then the right group of row `i` — with a missing slot of the
shorter column simply omitted (no placeholder), so for fixed recognition
output the skill order is the deterministic reading order. -/
theorem c7_reading_order (res : List TextBox) :
    groupSkills res =
      interleave ((groupColumn (leftColumn (skillLines res))).map SkillGroup.finalize)
        ((groupColumn (rightColumn (skillLines res))).map SkillGroup.finalize) := by
  unfold groupSkills
  by_cases h : (skillLines res).isEmpty
  · have hnil : skillLines res = [] := by simpa using h
    simp [h, hnil, leftColumn, rightColumn, groupColumn, sortByY, groupRunRev, interleave]
  · simp [h, emit_zip_interleave]

/-! ## Claim C9 -/

theorem pyMaxByR_spec : ∀ (cs : List Circle) (c : Circle),
    (cs.foldl (fun b x => if b.r < x.r then x else b) c) ∈ c :: cs ∧
      ∀ x ∈ c :: cs, x.r ≤ (cs.foldl (fun b x => if b.r < x.r then x else b) c).r := by
  intro cs
  induction cs with
  | nil =>
      intro c
      constructor
      · exact List.mem_singleton.mpr rfl
      · intro x hx
        rw [List.foldl_nil]
        exact le_of_eq (congrArg Circle.r (List.mem_singleton.mp hx))
  | cons d ds ih =>
      intro c
      rw [List.foldl_cons]
      obtain ⟨ihmem, ihmax⟩ := ih (if c.r < d.r then d else c)
      constructor
      · rcases List.mem_cons.mp ihmem with he | htl
        · rw [he]
          by_cases hcd : c.r < d.r
          · simp only [hcd, if_true]
            exact List.mem_cons_of_mem _ (List.mem_cons_self _ _)
          · simp only [hcd, if_false]
            exact List.mem_cons_self _ _
        · exact List.mem_cons_of_mem _ (List.mem_cons_of_mem _ htl)
      · have hhead : (if c.r < d.r then d else c).r ≤
            (ds.foldl (fun b x => if b.r < x.r then x else b) (if c.r < d.r then d else c)).r :=
          ihmax _ (List.mem_cons_self _ _)
        intro x hx
        rcases List.mem_cons.mp hx with rfl | hx'
        · refine le_trans ?_ hhead
          by_cases hcd : x.r < d.r
          · simp only [hcd, if_true]
            exact le_of_lt hcd
          · simp only [hcd, if_false]
            exact le_refl _
        · rcases List.mem_cons.mp hx' with rfl | hx''
          · refine le_trans ?_ hhead
            by_cases hcd : c.r < x.r
            · simp only [hcd, if_true]
              exact le_refl _
            · simp only [hcd, if_false]
              exact le_of_not_lt hcd
          · exact ihmax x (List.mem_cons_of_mem _ hx'')

/-- C9: on a fixed crop (a fixed edge-pixel counter) and a fixed
candidate list from the circle primitive, the marker detector selects a
candidate of maximal radius and classifies it filled (`◎`) exactly when
the edge density along the ring at 55% of that radius exceeds the
coverage ratio 0.6, plain (`○`) otherwise; two runs on identical input
(equal candidate lists, pointwise-equal edge counters) give identical
results. -/
theorem c9_detect (circles : List Circle) (f g : Circle → ℚ)
    (hne : circles ≠ []) (hfg : ∀ c, f c = g c) :
    ∃ c, pyMaxByR circles = some c ∧ c ∈ circles ∧ (∀ x ∈ circles, x.r ≤ c.r) ∧
      detectCircle circles f =
        (if 3 / 5 < coverage (f c) (innerRadius c.r) then some '◎' else some '○') ∧
      detectCircle circles f = detectCircle circles g := by
  cases circles with
  | nil => exact absurd rfl hne
  | cons c0 cs =>
      obtain ⟨hmem, hmax⟩ := pyMaxByR_spec cs c0
      refine ⟨_, rfl, hmem, hmax, rfl, ?_⟩
      simp only [detectCircle, pyMaxByR, hfg]

/-- C9 witness: for the candidate list `[(0,0,10), (1,1,6)]` and an edge
counter reporting 40 ring pixels, the detector selects the radius-10
circle and the two-run results coincide. -/
theorem c9_detect_witness :
    ∃ c, pyMaxByR [⟨0, 0, 10⟩, ⟨1, 1, 6⟩] = some c ∧
      c ∈ [⟨0, 0, 10⟩, ⟨1, 1, (6 : ℚ)⟩] ∧
      (∀ x ∈ [⟨0, 0, 10⟩, ⟨1, 1, (6 : ℚ)⟩], Circle.r x ≤ c.r) ∧
      detectCircle [⟨0, 0, 10⟩, ⟨1, 1, 6⟩] (fun _ => 40) =
        (if 3 / 5 < coverage ((fun _ => (40 : ℚ)) c) (innerRadius c.r)
         then some '◎' else some '○') ∧
      detectCircle [⟨0, 0, 10⟩, ⟨1, 1, 6⟩] (fun _ => 40) =
        detectCircle [⟨0, 0, 10⟩, ⟨1, 1, 6⟩] (fun _ => 40) :=
  c9_detect [⟨0, 0, 10⟩, ⟨1, 1, 6⟩] (fun _ => 40) (fun _ => 40)
    (by simp) (fun _ => rfl)

/-! ## Claim C4 -/

theorem mem_keys_dinsert (k v x : String) :
    ∀ (m : List (String × String)),
      x ∈ (dinsert m k v).map Prod.fst → x = k ∨ x ∈ m.map Prod.fst := by
  intro m
  induction m with
  | nil =>
      intro h
      simp [dinsert] at h
      exact Or.inl h
  | cons p m' ih =>
      intro h
      by_cases hk : p.1 = k
      · rw [show dinsert (p :: m') k v = (k, v) :: m' by
          simp [dinsert, hk], List.map_cons] at h
        rcases List.mem_cons.mp h with he | htl
        · exact Or.inl he
        · exact Or.inr (by rw [List.map_cons]; exact List.mem_cons_of_mem _ htl)
      · rw [show dinsert (p :: m') k v = p :: dinsert m' k v by
          simp [dinsert, hk], List.map_cons] at h
        rcases List.mem_cons.mp h with he | htl
        · exact Or.inr (by rw [List.map_cons]; exact he ▸ List.mem_cons_self _ _)
        · rcases ih htl with h1 | h2
          · exact Or.inl h1
          · exact Or.inr (by rw [List.map_cons]; exact List.mem_cons_of_mem _ h2)

theorem nodup_keys_dinsert (k v : String) :
    ∀ (m : List (String × String)),
      (m.map Prod.fst).Nodup → ((dinsert m k v).map Prod.fst).Nodup := by
  intro m
  induction m with
  | nil => intro _; simp [dinsert]
  | cons p m' ih =>
      intro h
      rw [List.map_cons] at h
      by_cases hk : p.1 = k
      · rw [show dinsert (p :: m') k v = (k, v) :: m' by simp [dinsert, hk]]
        rw [List.map_cons]
        exact List.Nodup.cons (by rw [← hk]; exact (List.nodup_cons.mp h).1)
          (List.nodup_cons.mp h).2
      · rw [show dinsert (p :: m') k v = p :: dinsert m' k v by simp [dinsert, hk]]
        rw [List.map_cons]
        refine List.Nodup.cons ?_ (ih (List.nodup_cons.mp h).2)
        intro hmem
        rcases mem_keys_dinsert k v p.1 m' hmem with he | htl
        · exact hk he
        · exact (List.nodup_cons.mp h).1 htl

theorem nodup_keys_canonicalMapOf (skills : List String) :
    ((canonicalMapOf skills).map Prod.fst).Nodup := by
  have key : ∀ (l : List String) (m0 : List (String × String)),
      (m0.map Prod.fst).Nodup →
      ((List.foldl (fun m name => dinsert m (norm name) name) m0 l).map Prod.fst).Nodup := by
    intro l m0 h0
    exact foldlPreserve (fun m => (m.map Prod.fst).Nodup) _
      (fun m name hm => nodup_keys_dinsert _ _ m hm) l m0 h0
  exact key skills [] (by simp)

theorem nodup_keys_loadSkillMappingWith (isAlt : String → Bool)
    (data : List (String × List String)) :
    ((loadSkillMappingWith isAlt data).map Prod.fst).Nodup := by
  have step2 : ∀ (m2 : List (String × String)) (pid : String) (name : String),
      (m2.map Prod.fst).Nodup →
      (((fun m name =>
          match dictGet m (pyLowerStr name) with
          | none => dinsert m (pyLowerStr name) pid
          | some existing =>
              if isAlt existing ∧ ¬ isAlt pid then dinsert m (pyLowerStr name) pid
              else m) m2 name).map Prod.fst).Nodup := by
    intro m2 pid name hm2
    cases hg : dictGet m2 (pyLowerStr name) with
    | none => simpa [hg] using nodup_keys_dinsert (pyLowerStr name) pid m2 hm2
    | some ex =>
        simp only [hg]
        split
        · exact nodup_keys_dinsert (pyLowerStr name) pid m2 hm2
        · exact hm2
  have inner : ∀ (names : List String) (pid : String) (m : List (String × String)),
      (m.map Prod.fst).Nodup →
      ((List.foldl (fun m name =>
          match dictGet m (pyLowerStr name) with
          | none => dinsert m (pyLowerStr name) pid
          | some existing =>
              if isAlt existing ∧ ¬ isAlt pid then dinsert m (pyLowerStr name) pid
              else m) m names).map Prod.fst).Nodup := by
    intro names pid m hm
    exact foldlPreserve (fun m => (m.map Prod.fst).Nodup) _
      (fun m2 name hm2 => step2 m2 pid name hm2) names m hm
  have outer : ∀ (d : List (String × List String)) (m : List (String × String)),
      (m.map Prod.fst).Nodup →
      ((List.foldl (fun m p =>
          p.2.foldl (fun m name =>
            match dictGet m (pyLowerStr name) with
            | none => dinsert m (pyLowerStr name) p.1
            | some existing =>
                if isAlt existing ∧ ¬ isAlt p.1 then dinsert m (pyLowerStr name) p.1
                else m) m) m d).map Prod.fst).Nodup := by
    intro d m hm
    exact foldlPreserve (fun m => (m.map Prod.fst).Nodup) _
      (fun m p hmp => inner p.2 p.1 m hmp) d m hm
  exact outer data [] (by simp)

theorem dictGet_nil (k : String) : dictGet [] k = none := rfl

theorem dictGet_cons_self (k v : String) (m : List (String × String)) :
    dictGet ((k, v) :: m) k = some v := by
  simp [dictGet, List.find?_cons_of_pos]

theorem dinsert_cons_self (k v w : String) (m : List (String × String)) :
    dinsert ((k, v) :: m) k w = (k, w) :: m := by
  simp [dinsert]

theorem lsmw_two (isAlt : String → Bool) (a b na nb : String)
    (hk : pyLowerStr na = pyLowerStr nb) :
    loadSkillMappingWith isAlt [(a, [na]), (b, [nb])] =
      if isAlt a ∧ ¬ isAlt b then [(pyLowerStr nb, b)] else [(pyLowerStr nb, a)] := by
  unfold loadSkillMappingWith
  rw [List.foldl_cons, List.foldl_cons, List.foldl_nil]
  show List.foldl _ (List.foldl _ [] [na]) [nb] = _
  rw [List.foldl_cons, List.foldl_nil, List.foldl_cons, List.foldl_nil]
  show (match dictGet (match dictGet [] (pyLowerStr na) with
      | none => dinsert [] (pyLowerStr na) a
      | some existing =>
          if isAlt existing ∧ ¬ isAlt a then dinsert [] (pyLowerStr na) a else [])
      (pyLowerStr nb) with
    | none => dinsert _ (pyLowerStr nb) b
    | some existing =>
        if isAlt existing ∧ ¬ isAlt b then
          dinsert (match dictGet [] (pyLowerStr na) with
            | none => dinsert [] (pyLowerStr na) a
            | some existing =>
                if isAlt existing ∧ ¬ isAlt a then dinsert [] (pyLowerStr na) a else [])
            (pyLowerStr nb) b
        else _) = _
  rw [dictGet_nil, hk]
  show (match dictGet (dinsert [] (pyLowerStr nb) a) (pyLowerStr nb) with
    | none => dinsert (dinsert [] (pyLowerStr nb) a) (pyLowerStr nb) b
    | some existing =>
        if isAlt existing ∧ ¬ isAlt b then
          dinsert (dinsert [] (pyLowerStr nb) a) (pyLowerStr nb) b
        else dinsert [] (pyLowerStr nb) a) = _
  show (match dictGet [(pyLowerStr nb, a)] (pyLowerStr nb) with
    | none => dinsert [(pyLowerStr nb, a)] (pyLowerStr nb) b
    | some existing =>
        if isAlt existing ∧ ¬ isAlt b then dinsert [(pyLowerStr nb, a)] (pyLowerStr nb) b
        else [(pyLowerStr nb, a)]) = _
  rw [dictGet_cons_self, dinsert_cons_self]

theorem canonicalMapOf_two (n1 n2 : String) (h : norm n1 = norm n2) :
    canonicalMapOf [n1, n2] = [(norm n2, n2)] := by
  unfold canonicalMapOf
  rw [List.foldl_cons, List.foldl_cons, List.foldl_nil, h]
  show dinsert (dinsert [] (norm n2) n1) (norm n2) n2 = _
  show dinsert [(norm n2, n1)] (norm n2) n2 = _
  rw [dinsert_cons_self]

/-- C4, counterexample: take the alias list with entries `("101",
["Skill A"])` and `("900001", ["Skill  a"])` — under the source's
alternate convention (`startswith("9")`) the first entry is the
non-alternate one — whose two aliases normalize to the same key
`"skilla"`.  The OCR-side canonical dictionary built from this list
(`CANONICAL_MAP`, a dict comprehension) maps the shared key to the
ALTERNATE entry's alias `"Skill  a"`: the collision resolves to the
later entry, not to the one that is not flagged as an alternate. -/
theorem c4_counterexample :
    norm "Skill A" = norm "Skill  a" ∧
    ("101" : String).startsWith "9" = false ∧
    ("900001" : String).startsWith "9" = true ∧
    dictGet (canonicalMapOf (loadSkills [("101", ["Skill A"]), ("900001", ["Skill  a"])]))
      (norm "Skill A") = some "Skill  a" ∧
    "Skill  a" ≠ "Skill A" := by
  with_unfolding_all decide

/-- C4, amended: both builders produce dictionaries with unique
normalized keys.  In `load_skill_mapping`, when two entries' aliases
collide on one key, the key maps to the identifier that is not flagged
as alternate regardless of entry order — for any alternate-flag
predicate, hence in particular for the source's hard-coded
`startswith("9")` instantiation.  In the OCR-side `CANONICAL_MAP`
builder a collision instead resolves to the later entry, with no
alternate-flag preference. -/
theorem c4_amended (isAlt : String → Bool) (data : List (String × List String))
    (skills : List String) (a b na nb n1 n2 : String)
    (hk : pyLowerStr na = pyLowerStr nb) (ha : isAlt a = true) (hb : isAlt b = false)
    (hn : norm n1 = norm n2) :
    ((loadSkillMappingWith isAlt data).map Prod.fst).Nodup ∧
    ((canonicalMapOf skills).map Prod.fst).Nodup ∧
    dictGet (loadSkillMappingWith isAlt [(a, [na]), (b, [nb])]) (pyLowerStr nb) = some b ∧
    dictGet (loadSkillMappingWith isAlt [(b, [nb]), (a, [na])]) (pyLowerStr na) = some b ∧
    dictGet (canonicalMapOf [n1, n2]) (norm n1) = some n2 := by
  refine ⟨nodup_keys_loadSkillMappingWith isAlt data, nodup_keys_canonicalMapOf skills,
    ?_, ?_, ?_⟩
  · rw [lsmw_two isAlt a b na nb hk]
    rw [if_pos (by simp [ha, hb])]
    exact dictGet_cons_self _ _ _
  · rw [lsmw_two isAlt b a nb na hk.symm]
    rw [if_neg (by simp [hb])]
    exact dictGet_cons_self _ _ _
  · rw [canonicalMapOf_two n1 n2 hn, hn]
    exact dictGet_cons_self _ _ _

/-- C4 witness: the amended statement with the source's
`startswith("9")` predicate, identifiers `"900001"` (alternate) and
`"101"` (non-alternate), colliding aliases `"X"`/`"x"` for the skill
mapping and `"Skill A"`/`"Skill  a"` for the OCR-side dictionary. -/
theorem c4_amended_witness :
    ((loadSkillMappingWith (fun i => i.startsWith "9")
        [("101", ["Skill A"]), ("900001", ["Skill  a"])]).map Prod.fst).Nodup ∧
    ((canonicalMapOf ["Skill A", "Skill  a"]).map Prod.fst).Nodup ∧
    dictGet (loadSkillMappingWith (fun i => i.startsWith "9")
        [("900001", ["X"]), ("101", ["x"])]) (pyLowerStr "x") = some "101" ∧
    dictGet (loadSkillMappingWith (fun i => i.startsWith "9")
        [("101", ["x"]), ("900001", ["X"])]) (pyLowerStr "X") = some "101" ∧
    dictGet (canonicalMapOf ["Skill A", "Skill  a"]) (norm "Skill A") = some "Skill  a" :=
  c4_amended (fun i => i.startsWith "9")
    [("101", ["Skill A"]), ("900001", ["Skill  a"])] ["Skill A", "Skill  a"]
    "900001" "101" "X" "x" "Skill A" "Skill  a"
    (by with_unfolding_all decide) (by with_unfolding_all decide)
    (by with_unfolding_all decide) (by with_unfolding_all decide)

/-! ## Claim C2 -/

theorem zip_map_fst_take {α β : Type} :
    ∀ (l1 : List α) (l2 : List β), (l1.zip l2).map Prod.fst = l1.take l2.length := by
  intro l1
  induction l1 with
  | nil => intro l2; simp
  | cons a l1 ih =>
      intro l2
      cases l2 with
      | nil => simp
      | cons b l2 => simp [ih]

theorem mem_insertLe {α : Type} (le : α → α → Bool) (a x : α) :
    ∀ (l : List α), x ∈ insertLe le a l → x = a ∨ x ∈ l := by
  intro l
  induction l with
  | nil =>
      intro h
      simp [insertLe] at h
      exact Or.inl h
  | cons y ys ih =>
      intro h
      unfold insertLe at h
      by_cases hc : le y a = true
      · rw [if_pos hc] at h
        rcases List.mem_cons.mp h with he | htl
        · exact Or.inr (by simp [he])
        · rcases ih htl with h1 | h2
          · exact Or.inl h1
          · exact Or.inr (List.mem_cons_of_mem _ h2)
      · rw [if_neg hc] at h
        rcases List.mem_cons.mp h with he | htl
        · exact Or.inl he
        · exact Or.inr htl

theorem mem_sortLe_fold {α : Type} (le : α → α → Bool) :
    ∀ (l acc : List α) (x : α),
      x ∈ l.foldl (fun acc y => insertLe le y acc) acc → x ∈ acc ∨ x ∈ l := by
  intro l
  induction l with
  | nil => intro acc x h; exact Or.inl (by simpa using h)
  | cons y ys ih =>
      intro acc x h
      rw [List.foldl_cons] at h
      rcases ih (insertLe le y acc) x h with h1 | h2
      · rcases mem_insertLe le y x acc h1 with he | ha
        · exact Or.inr (by simp [he])
        · exact Or.inl ha
      · exact Or.inr (List.mem_cons_of_mem _ h2)

theorem mem_sortLe {α : Type} (le : α → α → Bool) (l : List α) (x : α)
    (h : x ∈ sortLe le l) : x ∈ l := by
  rcases mem_sortLe_fold le l [] x h with h1 | h2
  · exact absurd h1 (List.not_mem_nil x)
  · exact h2

theorem statNums_text (res : List TextBox) (n : ℚ × ℚ × String)
    (h : n ∈ statNums res) : isStatNum n.2.2 = true := by
  unfold statNums at h
  rcases List.mem_map.mp h with ⟨b, hb, hbeq⟩
  rcases List.mem_filter.mp hb with ⟨_, hnum⟩
  rw [← hbeq]
  exact hnum

theorem statVals_mem (res : List TextBox) (v : String) (hv : v ∈ statVals res) :
    v = "" ∨ isStatNum v = true := by
  unfold statVals at hv
  cases hs : statsSorted res with
  | nil =>
      rw [hs] at hv
      simp at hv
      exact Or.inl hv
  | cons n rest =>
      rw [hs] at hv
      rcases List.mem_map.mp hv with ⟨m, hm, hmeq⟩
      have hm1 : m ∈ statRowOf res := List.take_subset 5 _ hm
      have hm2 : m ∈ (statsSorted res).filter
          (fun m2 => decide (|m2.1 - ((statsSorted res).head?.getD n).1| < 30)) := by
        unfold statRowOf at hm1
        rw [hs] at hm1
        have := mem_sortLe _ _ _ hm1
        rw [hs]
        simpa using this
      have hm3 : m ∈ statsSorted res := (List.mem_filter.mp hm2).1
      have hm4 : m ∈ statNums res := mem_sortLe _ _ _ hm3
      exact Or.inr (hmeq ▸ statNums_text res m hm4)

/-- C2, counterexample: on an image whose OCR output holds a single 3-4
digit numeral, the extracted stat record contains only the `"Speed"`
label — the four remaining labels are ABSENT from the record (the
`dict(zip(...))` truncates), not present-and-blank as the claim
requires. -/
theorem c2_counterexample :
    (statRecord [⟨[(10, 100), (50, 100), (50, 120), (10, 120)], "1200"⟩]).map Prod.fst
        = ["Speed"] ∧
    "Stamina" ∉
      (statRecord [⟨[(10, 100), (50, 100), (50, 120), (10, 120)], "1200"⟩]).map Prod.fst := by
  with_unfolding_all decide

/-- C2, amended: the record's labels are the first `|stats_vals|` of the
five fixed labels, in order (so when fewer than five values are selected
the remaining labels are absent rather than blank); at most five values
are ever emitted; when no 3-4 digit numeral is recognized all five
labels are present and blank; and every emitted value is either empty or
a 3-4 character decimal-digit string. -/
theorem c2_amended (res : List TextBox) :
    (statRecord res).map Prod.fst = statLabels.take (statVals res).length ∧
    (statVals res).length ≤ 5 ∧
    (statNums res = [] → statRecord res = statLabels.map (fun l => (l, ""))) ∧
    (∀ lv ∈ statRecord res, lv.2 = "" ∨ isStatNum lv.2 = true) := by
  refine ⟨zip_map_fst_take statLabels (statVals res), ?_, ?_, ?_⟩
  · unfold statVals
    cases statsSorted res with
    | nil => simp
    | cons n rest => simp [List.length_take]
  · intro h
    unfold statRecord statVals statsSorted
    rw [h]
    rfl
  · rintro ⟨l, v⟩ hlv
    exact statVals_mem res v (List.of_mem_zip hlv).2

/-- C2 witness: the amended statement evaluated at an empty OCR result
(all five labels blank) and at a single-numeral result (one label,
value a digit string). -/
theorem c2_amended_witness :
    statRecord [] = statLabels.map (fun l => (l, "")) ∧
    (("Speed", "1200").2 = "" ∨ isStatNum ("Speed", "1200").2 = true) :=
  ⟨(c2_amended []).2.2.1 rfl,
   (c2_amended [⟨[(10, 100), (50, 100), (50, 120), (10, 120)], "1200"⟩]).2.2.2
     ("Speed", "1200") (by with_unfolding_all decide)⟩

/-! ## Claim C8 -/

theorem skillFoldStep_none (st : List String × List String) :
    skillFoldStep st none = st := rfl

theorem skillFoldStep_some (st : List String × List String) (c : String) :
    skillFoldStep st (some c) =
      if c ∈ st.1 then st else (c :: st.1, st.2 ++ [c]) := rfl

theorem skillFold_snd : ∀ (cs : List (Option String)) (seen skills : List String),
    (cs.foldl skillFoldStep (seen, skills)).2 = skills ++ firstOccFrom seen (cs.filterMap id) := by
  intro cs
  induction cs with
  | nil => intro seen skills; simp [firstOccFrom]
  | cons c cs ih =>
      intro seen skills
      cases c with
      | none =>
          rw [List.foldl_cons]
          show (cs.foldl skillFoldStep (seen, skills)).2 = _
          rw [ih seen skills]
          simp
      | some c =>
          rw [List.foldl_cons]
          by_cases hc : c ∈ seen
          · show (cs.foldl skillFoldStep (if c ∈ seen then (seen, skills)
              else (c :: seen, skills ++ [c])) ).2 = _
            rw [if_pos hc, ih seen skills]
            simp [firstOccFrom, hc]
          · show (cs.foldl skillFoldStep (if c ∈ seen then (seen, skills)
              else (c :: seen, skills ++ [c])) ).2 = _
            rw [if_neg hc, ih (c :: seen) (skills ++ [c])]
            simp [firstOccFrom, hc]

theorem firstOccFrom_not_mem_seen : ∀ (l seen : List String) (x : String),
    x ∈ firstOccFrom seen l → x ∉ seen := by
  intro l
  induction l with
  | nil => intro seen x h; simp [firstOccFrom] at h
  | cons y ys ih =>
      intro seen x h
      unfold firstOccFrom at h
      by_cases hy : y ∈ seen
      · rw [if_pos hy] at h
        exact ih seen x h
      · rw [if_neg hy] at h
        rcases List.mem_cons.mp h with rfl | htl
        · exact hy
        · intro hxs
          exact ih (y :: seen) x htl (List.mem_cons_of_mem _ hxs)

theorem firstOccFrom_nodup : ∀ (l seen : List String), (firstOccFrom seen l).Nodup := by
  intro l
  induction l with
  | nil => intro seen; simp [firstOccFrom]
  | cons y ys ih =>
      intro seen
      unfold firstOccFrom
      by_cases hy : y ∈ seen
      · rw [if_pos hy]
        exact ih seen
      · rw [if_neg hy]
        refine List.Nodup.cons ?_ (ih (y :: seen))
        intro hmem
        exact firstOccFrom_not_mem_seen ys (y :: seen) y hmem (List.mem_cons_self _ _)

theorem firstOccFrom_mem : ∀ (l seen : List String) (x : String),
    x ∈ firstOccFrom seen l ↔ (x ∈ l ∧ x ∉ seen) := by
  intro l
  induction l with
  | nil => intro seen x; simp [firstOccFrom]
  | cons y ys ih =>
      intro seen x
      unfold firstOccFrom
      by_cases hy : y ∈ seen
      · rw [if_pos hy, ih]
        constructor
        · rintro ⟨h1, h2⟩
          exact ⟨List.mem_cons_of_mem _ h1, h2⟩
        · rintro ⟨h1, h2⟩
          rcases List.mem_cons.mp h1 with rfl | htl
          · exact absurd hy h2
          · exact ⟨htl, h2⟩
      · rw [if_neg hy]
        constructor
        · intro h
          rcases List.mem_cons.mp h with rfl | htl
          · exact ⟨List.mem_cons_self _ _, hy⟩
          · rcases (ih (y :: seen) x).mp htl with ⟨h1, h2⟩
            exact ⟨List.mem_cons_of_mem _ h1, fun hs => h2 (List.mem_cons_of_mem _ hs)⟩
        · rintro ⟨h1, h2⟩
          rcases List.mem_cons.mp h1 with rfl | htl
          · exact List.mem_cons_self _ _
          · by_cases hxy : x = y
            · exact hxy ▸ List.mem_cons_self _ _
            · exact List.mem_cons_of_mem _ ((ih (y :: seen) x).mpr
                ⟨htl, by simp [hxy, h2]⟩)

theorem skillFold_seen_iff : ∀ (cs : List (Option String)) (seen skills : List String),
    (∀ x, x ∈ seen ↔ x ∈ skills) →
    ∀ x, x ∈ (cs.foldl skillFoldStep (seen, skills)).1 ↔
      x ∈ (cs.foldl skillFoldStep (seen, skills)).2 := by
  intro cs
  induction cs with
  | nil => intro seen skills h x; simpa using h x
  | cons c cs ih =>
      intro seen skills h x
      cases c with
      | none =>
          rw [List.foldl_cons, skillFoldStep_none]
          exact ih seen skills h x
      | some c =>
          rw [List.foldl_cons, skillFoldStep_some]
          by_cases hc : c ∈ seen
          · rw [if_pos hc]
            exact ih seen skills h x
          · rw [if_neg hc]
            refine ih (c :: seen) (skills ++ [c]) ?_ x
            intro y
            rw [List.mem_cons, List.mem_append, List.mem_singleton, h y, or_comm]

/-- C8: the accepted-skill list equals the first-occurrence
deduplication of the accepted canonical names in reading order — each
name appears exactly once (the list has no duplicates), at the position
of its first occurrence — and accepting a further candidate that matches
an already-listed name leaves the list unchanged. -/
theorem c8_dedup (canonMap : List (String × String))
    (circleOf : ℚ × ℚ × ℚ × ℚ → Option Char) (res : List TextBox)
    (cs : List (Option String)) (c : String) :
    extractSkills canonMap circleOf res =
      firstOcc (((groupSkills res).map (skillCandidate canonMap circleOf)).filterMap id) ∧
    (extractSkills canonMap circleOf res).Nodup ∧
    (c ∈ skillsOut cs → skillsOut (cs ++ [some c]) = skillsOut cs) := by
  refine ⟨?_, ?_, ?_⟩
  · unfold extractSkills skillsOut firstOcc
    rw [skillFold_snd _ [] []]
    simp
  · unfold extractSkills skillsOut
    rw [skillFold_snd _ [] []]
    simpa using firstOccFrom_nodup _ []
  · intro hc
    unfold skillsOut
    rw [List.foldl_append, List.foldl_cons, List.foldl_nil]
    have hseen : c ∈ (cs.foldl skillFoldStep ([], [])).1 :=
      (skillFold_seen_iff cs [] [] (by simp) c).mpr hc
    show (skillFoldStep (cs.foldl skillFoldStep ([], [])) (some c)).2 = _
    rw [skillFoldStep_some, if_pos hseen]

/-- C8 witness: a third candidate matching the already-accepted name
`"A"` leaves the skill list unchanged. -/
theorem c8_dedup_witness :
    skillsOut ([some "A", some "A"] ++ [some "A"]) = skillsOut [some "A", some "A"] :=
  (c8_dedup [] (fun _ => none) [] [some "A", some "A"] "A").2.2 (by decide)

/-! ## Claims C1 and C10: the runner-name fold -/

theorem fuzzRatio_nonneg (a b : String) : 0 ≤ fuzzRatio a b := by
  unfold fuzzRatio
  split
  · norm_num
  · apply div_nonneg
    · positivity
    · positivity

theorem extractOne_runner_some (umaMap : List (String × String)) (q : String)
    (hne : umaMap ≠ []) :
    ∃ m, extractOne fuzzRatio q (umaMap.map Prod.fst) 0 = some m := by
  apply eoFold_some
  cases umaMap with
  | nil => exact absurd rfl hne
  | cons p m' => exact ⟨p.1, by simp, fuzzRatio_nonneg q p.1⟩

theorem dictGet_mem : ∀ (m : List (String × String)) (k : String),
    k ∈ m.map Prod.fst → ∃ p, p ∈ m ∧ p.1 = k ∧ dictGet m k = some p.2 := by
  intro m
  induction m with
  | nil => intro k hk; simp at hk
  | cons q m' ih =>
      intro k hk
      by_cases hq : q.1 = k
      · refine ⟨q, List.mem_cons_self _ _, hq, ?_⟩
        unfold dictGet
        rw [List.find?_cons_of_pos _ (by simpa using hq)]
        rfl
      · rw [List.map_cons] at hk
        rcases List.mem_cons.mp hk with he | htl
        · exact absurd he.symm hq
        · obtain ⟨p, hp, hpk, hpd⟩ := ih k htl
          refine ⟨p, List.mem_cons_of_mem _ hp, hpk, ?_⟩
          unfold dictGet
          rw [List.find?_cons_of_neg _ (by simpa using hq)]
          exact hpd

theorem resolvedName_ne (umaMap : List (String × String)) (b : TextBox)
    (hvals : ∀ p ∈ umaMap, p.2 ≠ "") (hne : umaMap ≠ []) :
    resolvedName umaMap b ≠ "" := by
  unfold resolvedName
  obtain ⟨m, hm⟩ := extractOne_runner_some umaMap (norm b.text) hne
  rw [hm]
  show (dictGet umaMap m.1).getD "" ≠ ""
  have hmem : m.1 ∈ umaMap.map Prod.fst :=
    eoFold_mem fuzzRatio (norm b.text) 0 (fun p => p.1 ∈ umaMap.map Prod.fst)
      (umaMap.map Prod.fst) none (by simp) (fun k hk _ => hk) m hm
  obtain ⟨p, hp, hpk, hpd⟩ := dictGet_mem umaMap m.1 hmem
  rw [hpd]
  simpa using hvals p hp

theorem runnerStep_eq (umaMap : List (String × String)) (width : ℚ)
    (acc : String × ℚ) (b : TextBox) (hacc : 0 ≤ acc.2) :
    runnerStep umaMap width acc b =
      if b.y1 < 400 ∧ width * (1 / 2) < b.x0 ∧ norm b.text ≠ "" then
        (if acc.2 < bestScore umaMap b
         then (resolvedName umaMap b, bestScore umaMap b) else acc)
      else acc := by
  unfold runnerStep bestScore resolvedName
  by_cases hr : b.y1 < 400 ∧ width * (1 / 2) < b.x0
  · rw [if_pos hr]
    by_cases hkey : norm b.text = ""
    · rw [if_pos hkey, if_neg (by simp [hkey])]
    · rw [if_neg hkey, if_pos ⟨hr.1, hr.2, hkey⟩]
      cases hm : extractOne fuzzRatio (norm b.text) (umaMap.map Prod.fst) 0 with
      | none => rw [if_neg (not_lt.mpr hacc)]
      | some m => rfl
  · rw [if_neg hr, if_neg (fun hcon => hr ⟨hcon.1, hcon.2.1⟩)]

theorem runnerFold_nil (umaMap : List (String × String)) (width : ℚ) (acc : String × ℚ) :
    runnerFold umaMap width [] acc = acc := rfl

theorem runnerFold_cons (umaMap : List (String × String)) (width : ℚ)
    (b : TextBox) (res : List TextBox) (acc : String × ℚ) :
    runnerFold umaMap width (b :: res) acc =
      runnerFold umaMap width res (runnerStep umaMap width acc b) := rfl

theorem runnerStep_nonneg (umaMap : List (String × String)) (width : ℚ)
    (acc : String × ℚ) (b : TextBox) (hacc : 0 ≤ acc.2) :
    0 ≤ (runnerStep umaMap width acc b).2 := by
  rw [runnerStep_eq umaMap width acc b hacc]
  split
  · split
    · next hlt => exact le_of_lt (lt_of_le_of_lt hacc hlt)
    · exact hacc
  · exact hacc

theorem runnerStep_le (umaMap : List (String × String)) (width : ℚ)
    (acc : String × ℚ) (b : TextBox) (hacc : 0 ≤ acc.2) :
    acc.2 ≤ (runnerStep umaMap width acc b).2 := by
  rw [runnerStep_eq umaMap width acc b hacc]
  split
  · split
    · next hlt => exact le_of_lt hlt
    · exact le_refl _
  · exact le_refl _

theorem runnerStep_ge (umaMap : List (String × String)) (width : ℚ)
    (acc : String × ℚ) (b : TextBox) (hacc : 0 ≤ acc.2)
    (hreg : inNameRegion width b) (hkey : norm b.text ≠ "") :
    bestScore umaMap b ≤ (runnerStep umaMap width acc b).2 := by
  have hreg' : b.y1 < 400 ∧ width * (1 / 2) < b.x0 := hreg
  rw [runnerStep_eq umaMap width acc b hacc, if_pos ⟨hreg'.1, hreg'.2, hkey⟩]
  split
  · exact le_refl _
  · next hlt => exact le_of_not_lt hlt

theorem runnerFold_nonneg (umaMap : List (String × String)) (width : ℚ) :
    ∀ (res : List TextBox) (acc : String × ℚ), 0 ≤ acc.2 →
      0 ≤ (runnerFold umaMap width res acc).2 := by
  intro res
  induction res with
  | nil => intro acc hacc; exact hacc
  | cons b res ih =>
      intro acc hacc
      rw [runnerFold_cons]
      exact ih _ (runnerStep_nonneg umaMap width acc b hacc)

theorem runnerFold_le (umaMap : List (String × String)) (width : ℚ) :
    ∀ (res : List TextBox) (acc : String × ℚ), 0 ≤ acc.2 →
      acc.2 ≤ (runnerFold umaMap width res acc).2 := by
  intro res
  induction res with
  | nil => intro acc _; exact le_refl _
  | cons b res ih =>
      intro acc hacc
      rw [runnerFold_cons]
      exact le_trans (runnerStep_le umaMap width acc b hacc)
        (ih _ (runnerStep_nonneg umaMap width acc b hacc))

theorem runnerFold_ge_best (umaMap : List (String × String)) (width : ℚ) :
    ∀ (res : List TextBox) (acc : String × ℚ) (b : TextBox), 0 ≤ acc.2 →
      b ∈ res → inNameRegion width b → norm b.text ≠ "" →
      bestScore umaMap b ≤ (runnerFold umaMap width res acc).2 := by
  intro res
  induction res with
  | nil => intro acc b _ hb; exact absurd hb (List.not_mem_nil b)
  | cons hd tl ih =>
      intro acc b hacc hb hreg hkey
      rw [runnerFold_cons]
      rcases List.mem_cons.mp hb with rfl | htl
      · exact le_trans (runnerStep_ge umaMap width acc b hacc hreg hkey)
          (runnerFold_le umaMap width tl _ (runnerStep_nonneg umaMap width acc b hacc))
      · exact ih _ b (runnerStep_nonneg umaMap width acc hd hacc) htl hreg hkey

theorem runnerFold_keep (umaMap : List (String × String)) (width : ℚ) :
    ∀ (res : List TextBox) (acc : String × ℚ), 0 ≤ acc.2 →
      (∀ b ∈ res, inNameRegion width b → norm b.text ≠ "" →
        bestScore umaMap b ≤ acc.2) →
      runnerFold umaMap width res acc = acc := by
  intro res
  induction res with
  | nil => intro acc _ _; rfl
  | cons hd tl ih =>
      intro acc hacc hbound
      rw [runnerFold_cons]
      have hstep : runnerStep umaMap width acc hd = acc := by
        rw [runnerStep_eq umaMap width acc hd hacc]
        by_cases hc : hd.y1 < 400 ∧ width * (1 / 2) < hd.x0 ∧ norm hd.text ≠ ""
        · rw [if_pos hc]
          have : bestScore umaMap hd ≤ acc.2 :=
            hbound hd (List.mem_cons_self _ _) ⟨hc.1, hc.2.1⟩ hc.2.2
          rw [if_neg (not_lt.mpr this)]
        · rw [if_neg hc]
      rw [hstep]
      exact ih acc hacc (fun b hb => hbound b (List.mem_cons_of_mem _ hb))

theorem runnerFold_lt (umaMap : List (String × String)) (width : ℚ) :
    ∀ (res : List TextBox) (acc : String × ℚ) (s : ℚ), 0 ≤ acc.2 → acc.2 < s →
      (∀ b ∈ res, inNameRegion width b → norm b.text ≠ "" →
        bestScore umaMap b < s) →
      (runnerFold umaMap width res acc).2 < s := by
  intro res
  induction res with
  | nil => intro acc s _ hlt _; exact hlt
  | cons hd tl ih =>
      intro acc s hacc hlt hbound
      rw [runnerFold_cons]
      refine ih _ s (runnerStep_nonneg umaMap width acc hd hacc) ?_
        (fun b hb => hbound b (List.mem_cons_of_mem _ hb))
      rw [runnerStep_eq umaMap width acc hd hacc]
      by_cases hc : hd.y1 < 400 ∧ width * (1 / 2) < hd.x0 ∧ norm hd.text ≠ ""
      · rw [if_pos hc]
        split
        · exact hbound hd (List.mem_cons_self _ _) ⟨hc.1, hc.2.1⟩ hc.2.2
        · exact hlt
      · rw [if_neg hc]
        exact hlt

theorem runnerFold_cases (umaMap : List (String × String)) (width : ℚ) :
    ∀ (res : List TextBox) (acc : String × ℚ), 0 ≤ acc.2 →
      runnerFold umaMap width res acc = acc ∨
        ∃ b ∈ res, (inNameRegion width b ∧ norm b.text ≠ "") ∧
          (runnerFold umaMap width res acc).1 = resolvedName umaMap b := by
  intro res
  induction res with
  | nil => intro acc _; exact Or.inl rfl
  | cons hd tl ih =>
      intro acc hacc
      rw [runnerFold_cons]
      by_cases hc : hd.y1 < 400 ∧ width * (1 / 2) < hd.x0 ∧ norm hd.text ≠ ""
      · by_cases hlt : acc.2 < bestScore umaMap hd
        · have hstep : runnerStep umaMap width acc hd =
              (resolvedName umaMap hd, bestScore umaMap hd) := by
            rw [runnerStep_eq umaMap width acc hd hacc, if_pos hc, if_pos hlt]
          rw [hstep]
          rcases ih (resolvedName umaMap hd, bestScore umaMap hd)
              (le_of_lt (lt_of_le_of_lt hacc hlt)) with heq | ⟨b, hb, hcb, hname⟩
          · refine Or.inr ⟨hd, List.mem_cons_self _ _, ⟨⟨hc.1, hc.2.1⟩, hc.2.2⟩, ?_⟩
            rw [heq]
          · exact Or.inr ⟨b, List.mem_cons_of_mem _ hb, hcb, hname⟩
        · have hstep : runnerStep umaMap width acc hd = acc := by
            rw [runnerStep_eq umaMap width acc hd hacc, if_pos hc, if_neg hlt]
          rw [hstep]
          rcases ih acc hacc with heq | ⟨b, hb, hcb, hname⟩
          · exact Or.inl heq
          · exact Or.inr ⟨b, List.mem_cons_of_mem _ hb, hcb, hname⟩
      · have hstep : runnerStep umaMap width acc hd = acc := by
          rw [runnerStep_eq umaMap width acc hd hacc, if_neg hc]
        rw [hstep]
        rcases ih acc hacc with heq | ⟨b, hb, hcb, hname⟩
        · exact Or.inl heq
        · exact Or.inr ⟨b, List.mem_cons_of_mem _ hb, hcb, hname⟩

/-- C1, counterexample: the runner-name resolver applies NO similarity
cutoff.  On an image whose only name-region text box reads `"a"`,
matched against a name dictionary holding only `"Abcde"`, the best match
scores below 80 (the fixed cutoff used for skills — `100·2·1/6 ≈ 33`),
yet the name is resolved to `"Abcde"` instead of being left blank. -/
theorem c1_counterexample :
    runnerName [("abcde", "Abcde")] 400
      [⟨[(300, 100), (320, 100), (320, 120), (300, 120)], "a"⟩] = "Abcde" ∧
    bestScore [("abcde", "Abcde")]
      ⟨[(300, 100), (320, 100), (320, 120), (300, 120)], "a"⟩ < 80 := by
  with_unfolding_all decide

/-- C1, amended: the runner-name resolver applies the same
normalize-and-match procedure against the name dictionary but with no
similarity cutoff: the running best is replaced on any strictly larger
score starting from 0, so (for a dictionary with non-empty display
names) the name is resolved exactly when some name-region candidate's
best match scores above 0 — regardless of the fixed cutoff 80 used for
skills — and is left blank only when no candidate scores positively. -/
theorem c1_amended (umaMap : List (String × String)) (width : ℚ) (res : List TextBox)
    (hvals : ∀ p ∈ umaMap, p.2 ≠ "") :
    runnerName umaMap width res ≠ "" ↔
      ∃ b ∈ res, inNameRegion width b ∧ norm b.text ≠ "" ∧
        0 < bestScore umaMap b := by
  constructor
  · intro hne
    by_contra hno
    push_neg at hno
    have hkeep := runnerFold_keep umaMap width res ("", 0) (le_refl 0)
      (fun b hb hr hk => by
        have := hno b hb hr hk
        simpa using not_lt.mp (by simpa using this))
    unfold runnerName at hne
    rw [hkeep] at hne
    exact hne rfl
  · rintro ⟨b, hb, hreg, hkey, hpos⟩
    have hfold2 : 0 < (runnerFold umaMap width res ("", 0)).2 :=
      lt_of_lt_of_le hpos
        (runnerFold_ge_best umaMap width res ("", 0) b (le_refl 0) hb hreg hkey)
    have hmapne : umaMap ≠ [] := by
      intro hmap
      rw [hmap] at hpos
      unfold bestScore at hpos
      simp [extractOne] at hpos
    rcases runnerFold_cases umaMap width res ("", 0) (le_refl 0) with
      heq | ⟨b', _, ⟨hreg', hkey'⟩, hname⟩
    · rw [heq] at hfold2
      exact absurd hfold2 (by norm_num)
    · unfold runnerName
      rw [hname]
      exact resolvedName_ne umaMap b' hvals hmapne

/-- C1 witness: the amended statement at a concrete one-box,
one-entry instance whose best match scores `100/3 > 0`. -/
theorem c1_amended_witness :
    runnerName [("abcde", "Abcde")] 400
      [⟨[(300, 100), (320, 100), (320, 120), (300, 120)], "a"⟩] ≠ "" :=
  (c1_amended [("abcde", "Abcde")] 400
      [⟨[(300, 100), (320, 100), (320, 120), (300, 120)], "a"⟩]
      (by decide)).mpr
    ⟨⟨[(300, 100), (320, 100), (320, 120), (300, 120)], "a"⟩,
      by simp,
      by with_unfolding_all decide,
      by decide,
      by with_unfolding_all decide⟩

/-! ## Claim C10 -/

theorem runnerFold_filter (umaMap : List (String × String)) (width : ℚ) :
    ∀ (res : List TextBox) (acc : String × ℚ),
      runnerFold umaMap width res acc =
        runnerFold umaMap width
          (res.filter (fun b => decide (b.y1 < 400 ∧ width * (1 / 2) < b.x0))) acc := by
  intro res
  induction res with
  | nil => intro acc; rfl
  | cons b res ih =>
      intro acc
      by_cases hb : b.y1 < 400 ∧ width * (1 / 2) < b.x0
      · rw [List.filter_cons_of_pos (by simpa using hb)]
        rw [runnerFold_cons, runnerFold_cons]
        exact ih _
      · rw [List.filter_cons_of_neg (by simpa using hb)]
        rw [runnerFold_cons]
        have hskip : runnerStep umaMap width acc b = acc := by
          unfold runnerStep
          rw [if_neg hb]
        rw [hskip]
        exact ih acc

/-- C10: the runner-name resolution of `extract` considers only text
boxes whose bottom edge lies above pixel row 400 and whose left edge
lies strictly right of half the image width — deleting every other box
from the OCR result leaves the resolved name unchanged — and among the
considered boxes, the first (in OCR order) whose positive best score is
maximal determines the name. -/
theorem c10_region_argmax (umaMap : List (String × String)) (width : ℚ)
    (res pre post : List TextBox) (b : TextBox) :
    runnerName umaMap width res =
      runnerName umaMap width
        (res.filter (fun b => decide (b.y1 < 400 ∧ width * (1 / 2) < b.x0))) ∧
    (res = pre ++ b :: post →
      inNameRegion width b → norm b.text ≠ "" → 0 < bestScore umaMap b →
      (∀ b' ∈ res, inNameRegion width b' → norm b'.text ≠ "" →
        bestScore umaMap b' ≤ bestScore umaMap b) →
      (∀ b' ∈ pre, inNameRegion width b' → norm b'.text ≠ "" →
        bestScore umaMap b' < bestScore umaMap b) →
      runnerName umaMap width res = resolvedName umaMap b) := by
  constructor
  · unfold runnerName
    rw [runnerFold_filter umaMap width res ("", 0)]
  · intro hsplit hreg hkey hpos hmax hfirst
    subst hsplit
    unfold runnerName
    have happ : runnerFold umaMap width (pre ++ b :: post) ("", 0) =
        runnerFold umaMap width post
          (runnerStep umaMap width (runnerFold umaMap width pre ("", 0)) b) := by
      unfold runnerFold
      rw [List.foldl_append, List.foldl_cons]
    rw [happ]
    have hnn : 0 ≤ (runnerFold umaMap width pre ("", 0)).2 :=
      runnerFold_nonneg umaMap width pre ("", 0) (le_refl 0)
    have hlt : (runnerFold umaMap width pre ("", 0)).2 < bestScore umaMap b :=
      runnerFold_lt umaMap width pre ("", 0) (bestScore umaMap b)
        (le_refl 0) hpos hfirst
    have hreg' : b.y1 < 400 ∧ width * (1 / 2) < b.x0 := hreg
    have hstep : runnerStep umaMap width (runnerFold umaMap width pre ("", 0)) b =
        (resolvedName umaMap b, bestScore umaMap b) := by
      rw [runnerStep_eq umaMap width _ b hnn, if_pos ⟨hreg'.1, hreg'.2, hkey⟩,
        if_pos hlt]
    rw [hstep]
    have hkeep : runnerFold umaMap width post
        (resolvedName umaMap b, bestScore umaMap b) =
        (resolvedName umaMap b, bestScore umaMap b) := by
      refine runnerFold_keep umaMap width post _ (le_of_lt hpos) ?_
      intro b' hb' hr hk
      exact hmax b' (List.mem_append_right _ (List.mem_cons_of_mem _ hb')) hr hk
    rw [hkeep]

/-- C10 witness: the statement at a one-box OCR result inside the name
region, where that box is both first and maximal. -/
theorem c10_region_argmax_witness :
    runnerName [("abcde", "Abcde")] 400
        [⟨[(300, 100), (320, 100), (320, 120), (300, 120)], "a"⟩] =
      resolvedName [("abcde", "Abcde")]
        ⟨[(300, 100), (320, 100), (320, 120), (300, 120)], "a"⟩ :=
  (c10_region_argmax [("abcde", "Abcde")] 400
      [⟨[(300, 100), (320, 100), (320, 120), (300, 120)], "a"⟩] []
      [] ⟨[(300, 100), (320, 100), (320, 120), (300, 120)], "a"⟩).2
    rfl
    (by with_unfolding_all decide)
    (by decide)
    (by with_unfolding_all decide)
    (by with_unfolding_all decide)
    (by with_unfolding_all decide)

end UmaOcr
